import Mathlib

/-!
Shallow embedding of the streaming process-mining core of this repository
(`src/pm.py`, class `Miner`), together with proofs about it.

Modelling conventions:
* Python `int` counters become `Nat`; the configured `cut_point` is kept as
  `Int` (Python allows non-positive values) and compared against the trace
  counter through the coercion `(· : Int)`.
* The per-case open-trace dictionary `traces` and the `Counter` of variants
  are insertion-ordered association lists, exactly as CPython dicts are.
* `Counter.most_common` and `list.sort` are stable sorts; any stable sort
  computes the same function, so they are embedded with the structurally
  recursive `List.insertionSort` (stable, like Timsort).
* Fallible operations (`traces.pop` raising `KeyError`, `models[-1]` on an
  empty list raising `IndexError`, float division by zero raising
  `ZeroDivisionError`) return `Except PmError`.
* The model-learning and metric backends (pm4py / external processes) are
  opaque collaborators: they are a parameter `Backend M` of the embedding.
  Metric values are embedded as `ℚ`.
* `learn_calls` / `eval_calls` are instrumentation counters, not stored by
  the Python object: they count executions of `learn_model` /
  `evaluate_model` so that claims about backend invocation can be stated.
-/

namespace PM

abbrev Activity := String

abbrev Case := String

/-- A variant: the (collapsed) activity sequence of a completed case;
`tuple(traces.pop(case))` in `src/pm.py`. -/
abbrev Variant := List Activity

/-- `FINAL_ACTIVITY = '_END_'` (src/pm.py line 24). -/
def FINAL_ACTIVITY : Activity := "_END_"

/-- Ranking policy (`class Order(Enum)` in src/pm.py). -/
inductive Order where
  | FRQ
  | MIN
  | MAX
deriving DecidableEq

/-- Discovery algorithm selector (`class Algo(Enum)` in src/pm.py). -/
inductive Algo where
  | IND
  | SPL
  | ILP
deriving DecidableEq

/-- The constructor arguments of `Miner.__init__` that drive stream
processing (the log name only selects a file path and is omitted). -/
structure Config where
  order : Order
  algo : Algo
  use_filter : Bool
  cut_point : Int
  top_variants : Int
deriving DecidableEq

/-- One stream event; `process_stream` reads exactly the case identifier
(`event[CASE_ID_KEY]`) and the activity (`event[ACTIVITY_KEY]`). -/
structure Event where
  case_id : Case
  activity : Activity
deriving DecidableEq

/-- Python exceptions that the reference code can raise while processing. -/
inductive PmError where
  | keyError
  | indexError
  | zeroDivisionError
  | typeError
deriving DecidableEq

/-- The opaque external collaborators: model discovery (`learn_model`'s
call into pm4py or an external process) and the two conformance metrics
(`fitness_evaluator.apply`, `precision_evaluator.apply`). -/
structure Backend (M : Type) where
  learn : List Variant → M
  fitness : M → Variant → ℚ
  precision : M → Variant → ℚ

/-- The mutable state of a `Miner` during `process_stream`, including the
local `traces` dictionary of open cases. -/
structure MinerState (M : Type) where
  processed_traces : Nat
  variants : List (Variant × Nat)
  best_variants : Option (List Variant)
  models : List M
  drifts : List (Nat × List Variant)
  evaluations : List (List ℚ)
  traces : List (Case × List Activity)
  learn_calls : Nat
  eval_calls : Nat
deriving DecidableEq

/-- The state right after `Miner.__init__` (counters zero, everything
empty, `best_variants = None`). -/
def initState (M : Type) : MinerState M :=
  { processed_traces := 0
    variants := []
    best_variants := none
    models := []
    drifts := []
    evaluations := []
    traces := []
    learn_calls := 0
    eval_calls := 0 }

/-- Dictionary lookup (`case in traces` / `traces[case]`) on an
insertion-ordered association list. -/
def lookupAssoc (l : List (Case × List Activity)) (c : Case) : Option (List Activity) :=
  match l with
  | [] => none
  | (k, v) :: rest => if k = c then some v else lookupAssoc rest c

/-- `traces.pop(case)`: remove the binding of `c` and return its value and
the remaining dictionary; `none` models the `KeyError` on a missing key. -/
def popAssoc (l : List (Case × List Activity)) (c : Case) :
    Option (List Activity × List (Case × List Activity)) :=
  match l with
  | [] => none
  | (k, v) :: rest =>
    if k = c then some (v, rest)
    else
      match popAssoc rest c with
      | none => none
      | some (w, rest') => some (w, (k, v) :: rest')

/-- `traces[case] = v`: overwrite the binding in place (appending at the
end if absent, as a CPython dict does). -/
def setAssoc (l : List (Case × List Activity)) (c : Case) (v : List Activity) :
    List (Case × List Activity) :=
  match l with
  | [] => [(c, v)]
  | (k, w) :: rest => if k = c then (k, v) :: rest else (k, w) :: setAssoc rest c v

/-- `self.variants[new_trace] += 1` on a `collections.Counter`: bump the
count in place, or append the key with count 1 (insertion order). -/
def counterAdd (l : List (Variant × Nat)) (v : Variant) : List (Variant × Nat) :=
  match l with
  | [] => [(v, 1)]
  | (k, n) :: rest => if k = v then (k, n + 1) :: rest else (k, n) :: counterAdd rest v

/-- Sort key of `Counter.most_common`: descending occurrence count. -/
def byCountDesc (a b : Variant × Nat) : Prop := b.2 ≤ a.2

/-- Sort key of `best_variants.sort(key=len)`: ascending length. -/
def byLenAsc (a b : Variant) : Prop := a.length ≤ b.length

/-- Sort key of `best_variants.sort(key=len, reverse=True)`. -/
def byLenDesc (a b : Variant) : Prop := b.length ≤ a.length

instance : DecidableRel byCountDesc := fun a b => Nat.decLe b.2 a.2

instance : DecidableRel byLenAsc := fun a b => Nat.decLe a.length b.length

instance : DecidableRel byLenDesc := fun a b => Nat.decLe b.length a.length

instance : IsTotal (Variant × Nat) byCountDesc := ⟨fun a b => Nat.le_total b.2 a.2⟩

instance : IsTrans (Variant × Nat) byCountDesc := ⟨fun _ _ _ h1 h2 => Nat.le_trans h2 h1⟩

instance : IsTotal Variant byLenAsc := ⟨fun a b => Nat.le_total a.length b.length⟩

instance : IsTrans Variant byLenAsc := ⟨fun _ _ _ h1 h2 => Nat.le_trans h1 h2⟩

instance : IsTotal Variant byLenDesc := ⟨fun a b => Nat.le_total b.length a.length⟩

instance : IsTrans Variant byLenDesc := ⟨fun _ _ _ h1 h2 => Nat.le_trans h2 h1⟩

/-- `Counter.most_common()` with no argument: all items, stably sorted by
descending count (ties keep first-encounter order). -/
def mostCommonAll (l : List (Variant × Nat)) : List (Variant × Nat) :=
  List.insertionSort byCountDesc l

/-- `Counter.most_common(n)`: `[]` for `n ≤ 0` (as `heapq.nlargest` does),
otherwise the `n` first items of the full descending sort. -/
def mostCommon (n : Int) (l : List (Variant × Nat)) : List (Variant × Nat) :=
  if n ≤ 0 then [] else (mostCommonAll l).take n.toNat

/-- Python slice `l[:n]`, including the negative-index meaning. -/
def pyTake (n : Int) (l : List α) : List α :=
  if 0 ≤ n then l.take n.toNat else l.take (l.length - (-n).toNat)

/-- `Miner.select_best_variants` (src/pm.py lines 122-131): under `FRQ`
take the `top_variants` most common variants; otherwise stably re-sort all
variants by length (descending for `MAX`) and slice. -/
def select_best_variants (order : Order) (top_variants : Int)
    (variants : List (Variant × Nat)) : List Variant :=
  match order with
  | .FRQ => (mostCommon top_variants variants).map Prod.fst
  | .MIN => pyTake top_variants (List.insertionSort byLenAsc ((mostCommonAll variants).map Prod.fst))
  | .MAX => pyTake top_variants (List.insertionSort byLenDesc ((mostCommonAll variants).map Prod.fst))

/-- The expression `2 * fitness * precision / (fitness + precision)`
(src/pm.py line 167); Python float division raises `ZeroDivisionError`
when the divisor is zero. -/
def f_measure (fitness precision : ℚ) : Except PmError ℚ :=
  if fitness + precision = 0 then .error .zeroDivisionError
  else .ok (2 * fitness * precision / (fitness + precision))

/-- One iteration of the loop in `Miner.evaluate_model`: the three metrics
`[fitness, precision, f-measure]` of `trace` against one model. -/
def eval_one (B : Backend M) (model : M) (trace : Variant) : Except PmError (List ℚ) :=
  match f_measure (B.fitness model trace) (B.precision model trace) with
  | .error e => .error e
  | .ok fm => .ok [B.fitness model trace, B.precision model trace, fm]

/-- `Miner.evaluate_model` (src/pm.py lines 154-167): append one record of
six numbers, metrics against the current model `models[-1]` followed by
metrics against the initial model `models[0]`; indexing an empty model
list raises `IndexError`. -/
def evaluate_model (B : Backend M) (s : MinerState M) (trace : Variant) :
    Except PmError (MinerState M) :=
  match s.models.getLast?, s.models.head? with
  | some current, some initial =>
    match eval_one B current trace with
    | .error e => .error e
    | .ok r1 =>
      match eval_one B initial trace with
      | .error e => .error e
      | .ok r2 =>
        .ok { s with evaluations := s.evaluations ++ [r1 ++ r2]
                     eval_calls := s.eval_calls + 1 }
  | _, _ => .error .indexError

/-- `Miner.learn_model` (src/pm.py lines 133-152): build an exemplar log
from `best_variants` and append the model produced by the discovery
backend; iterating `None` would raise a `TypeError`. -/
def learn_model (B : Backend M) (s : MinerState M) : Except PmError (MinerState M) :=
  match s.best_variants with
  | none => .error .typeError
  | some bv =>
    .ok { s with models := s.models ++ [B.learn bv]
                 learn_calls := s.learn_calls + 1 }

/-- The body of the `for event in stream` loop of `Miner.process_stream`
(src/pm.py lines 99-120), acting on one event. -/
def process_event (B : Backend M) (cfg : Config) (s : MinerState M) (e : Event) :
    Except PmError (MinerState M) :=
  if e.activity = FINAL_ACTIVITY then
    match popAssoc s.traces e.case_id with
    | none => .error .keyError
    | some (new_trace, traces') =>
      let s1 : MinerState M :=
        { s with traces := traces'
                 variants := counterAdd s.variants new_trace
                 processed_traces := s.processed_traces + 1 }
      if (s1.processed_traces : Int) = cfg.cut_point then
        let bv := select_best_variants cfg.order cfg.top_variants s1.variants
        learn_model B
          { s1 with best_variants := some bv
                    drifts := s1.drifts ++ [(s1.processed_traces, bv)] }
      else if (s1.processed_traces : Int) > cfg.cut_point then
        match evaluate_model B s1 new_trace with
        | .error err => .error err
        | .ok s2 =>
          let bv := select_best_variants cfg.order cfg.top_variants s2.variants
          let s3 : MinerState M := { s2 with best_variants := some bv }
          match s3.drifts.getLast? with
          | none => .error .indexError
          | some last =>
            if bv ≠ last.2 then
              learn_model B
                { s3 with drifts := s3.drifts ++ [(s3.processed_traces, bv)] }
            else .ok s3
      else .ok s1
  else
    match lookupAssoc s.traces e.case_id with
    | none => .ok { s with traces := s.traces ++ [(e.case_id, [e.activity])] }
    | some buf =>
      match buf.getLast? with
      | none => .error .indexError
      | some lastAct =>
        if buf.length = 1 ∨ lastAct ≠ e.activity ∨ buf.dropLast.getLast? ≠ some e.activity then
          .ok { s with traces := setAssoc s.traces e.case_id (buf ++ [e.activity]) }
        else .ok s

/-- `Miner.process_stream`, folding the loop body over the event stream;
an uncaught exception aborts the run. -/
def process_stream (B : Backend M) (cfg : Config) :
    MinerState M → List Event → Except PmError (MinerState M)
  | s, [] => .ok s
  | s, e :: es =>
    match process_event B cfg s e with
    | .error err => .error err
    | .ok s' => process_stream B cfg s' es

/-- `true` iff the list contains three consecutive equal activities. -/
def hasTriple : List Activity → Bool
  | a :: b :: c :: rest => (decide (a = b) && decide (b = c)) || hasTriple (b :: c :: rest)
  | _ => false

/-- The occurrence count the `Counter` stores for a variant (0 if absent). -/
def countOf (l : List (Variant × Nat)) (v : Variant) : Nat :=
  match l with
  | [] => 0
  | (k, n) :: rest => if k = v then n else countOf rest v

/-! Concrete fixtures used to exercise the theorems below. The model type
is instantiated with `List Variant`: the backend hands back the exemplar
log itself as the "discovered model". -/

/-- A backend whose metrics are constantly 1. -/
def B1 : Backend (List Variant) :=
  { learn := id, fitness := fun _ _ => 1, precision := fun _ _ => 1 }

/-- A backend whose metrics are constantly 0 (degenerate evaluation). -/
def Bz : Backend (List Variant) :=
  { learn := id, fitness := fun _ _ => 0, precision := fun _ _ => 0 }

/-- Frequency ranking, warm-up after 1 trace, top-1 variants. -/
def cfgA : Config :=
  { order := .FRQ, algo := .IND, use_filter := false, cut_point := 1, top_variants := 1 }

/-- Frequency ranking with a warm-up cut that the fixture streams never reach. -/
def cfgBig : Config :=
  { order := .FRQ, algo := .IND, use_filter := false, cut_point := 10, top_variants := 1 }

/-- An invalid configuration: warm-up count 0. -/
def cfgZ : Config :=
  { order := .FRQ, algo := .IND, use_filter := false, cut_point := 0, top_variants := 5 }

/-- State with one open case, as after processing the single event
`("c1", "a")` from the initial state. -/
def sOpen : MinerState (List Variant) :=
  { initState (List Variant) with traces := [("c1", ["a"])] }

/-- State after the warm-up trace `["a"]` (cut point 1) plus an open
second case `"c2"` whose buffer holds `["b"]`. -/
def s2W : MinerState (List Variant) :=
  { processed_traces := 1
    variants := [(["a"], 1)]
    best_variants := some [["a"]]
    models := [[["a"]]]
    drifts := [(1, [["a"]])]
    evaluations := []
    traces := [("c2", ["b"])]
    learn_calls := 1
    eval_calls := 0 }

/-- The state `s2W` evolves into when case `"c2"` finalizes: the trace is
evaluated (metrics 1 under `B1`), the recomputed top-1 ranking still is
`[["a"]]`, so no drift record and no new model appear. -/
def s3W : MinerState (List Variant) :=
  { processed_traces := 2
    variants := [(["a"], 1), (["b"], 1)]
    best_variants := some [["a"]]
    models := [[["a"]]]
    drifts := [(1, [["a"]])]
    evaluations := [[1, 1, 1, 1, 1, 1]]
    traces := []
    learn_calls := 1
    eval_calls := 1 }

/-- A variant index fixture with three variants and distinct counts. -/
def cW : List (Variant × Nat) :=
  [(["a"], 3), (["b", "b"], 1), (["c"], 2)]

/-- Run invariant of `process_stream`: dictionary keys are unique, open
buffers are nonempty and triple-free, recorded variants are triple-free,
drift counts never exceed the trace counter, are strictly increasing and
start at the cut point, and drift records, models and learning-backend
invocations stay in bijection. -/
structure Inv (cfg : Config) (s : MinerState M) : Prop where
  traces_keys : (s.traces.map Prod.fst).Nodup
  traces_ne : ∀ p ∈ s.traces, p.2 ≠ []
  traces_noTriple : ∀ p ∈ s.traces, hasTriple p.2 = false
  variants_keys : (s.variants.map Prod.fst).Nodup
  variants_noTriple : ∀ p ∈ s.variants, hasTriple p.1 = false
  drift_le : ∀ d ∈ s.drifts, d.1 ≤ s.processed_traces
  drift_mono : List.Chain' (· < ·) (s.drifts.map Prod.fst)
  drift_first : ∀ d ∈ s.drifts.head?, (d.1 : Int) = cfg.cut_point
  len_models : s.drifts.length = s.models.length
  len_learn : s.models.length = s.learn_calls

end PM

deriving instance DecidableEq for Except

namespace PM

theorem lookupAssoc_eq_none {l : List (Case × List Activity)} {c : Case} :
    lookupAssoc l c = none ↔ c ∉ l.map Prod.fst := by
  induction l with
  | nil => simp [lookupAssoc]
  | cons hd tl ih =>
    obtain ⟨k, v⟩ := hd
    by_cases hk : k = c
    · subst hk; simp [lookupAssoc]
    · simp [lookupAssoc, hk, ih, Ne.symm hk]

theorem lookupAssoc_mem {l : List (Case × List Activity)} {c : Case} {v : List Activity}
    (h : lookupAssoc l c = some v) : (c, v) ∈ l := by
  induction l with
  | nil => simp [lookupAssoc] at h
  | cons hd tl ih =>
    obtain ⟨k, w⟩ := hd
    by_cases hk : k = c
    · subst hk
      simp [lookupAssoc] at h
      simp [h]
    · simp [lookupAssoc, hk] at h
      simp [ih h]

theorem popAssoc_none_iff {l : List (Case × List Activity)} {c : Case} :
    popAssoc l c = none ↔ c ∉ l.map Prod.fst := by
  induction l with
  | nil => simp [popAssoc]
  | cons hd tl ih =>
    obtain ⟨k, v⟩ := hd
    by_cases hk : k = c
    · subst hk; simp [popAssoc]
    · simp only [popAssoc, if_neg hk, List.map_cons, List.mem_cons, not_or]
      constructor
      · intro h
        refine ⟨fun hc => hk hc.symm, ?_⟩
        rw [← ih]
        cases hrec : popAssoc tl c with
        | none => rfl
        | some pr =>
          obtain ⟨w, r⟩ := pr
          rw [hrec] at h
          simp at h
      · rintro ⟨h1, h2⟩
        rw [← ih] at h2
        rw [h2]

theorem popAssoc_some {l : List (Case × List Activity)} {c : Case}
    {v : List Activity} {l' : List (Case × List Activity)}
    (h : popAssoc l c = some (v, l')) :
    ∃ l1 l2, l = l1 ++ (c, v) :: l2 ∧ c ∉ l1.map Prod.fst ∧ l' = l1 ++ l2 := by
  induction l generalizing l' with
  | nil => simp [popAssoc] at h
  | cons hd tl ih =>
    obtain ⟨k, w⟩ := hd
    by_cases hk : k = c
    · subst hk
      simp only [popAssoc, if_true, eq_self_iff_true, if_pos, Option.some.injEq,
        Prod.mk.injEq] at h
      exact ⟨[], tl, by simp [h.1], by simp, by simp [h.2]⟩
    · simp only [popAssoc, if_neg hk] at h
      cases hrec : popAssoc tl c with
      | none => rw [hrec] at h; cases h
      | some pr =>
        obtain ⟨w', tl'⟩ := pr
        rw [hrec] at h
        simp only [Option.some.injEq, Prod.mk.injEq] at h
        obtain ⟨l1, l2, heq, hnot, hrest⟩ := ih (by rw [hrec, h.1])
        exact ⟨(k, w) :: l1, l2, by simp [heq], by simp [Ne.symm hk, hnot],
          by simp [← h.2, hrest]⟩

theorem popAssoc_lookup_none {l : List (Case × List Activity)} {c : Case} :
    popAssoc l c = none ↔ lookupAssoc l c = none := by
  rw [popAssoc_none_iff, lookupAssoc_eq_none]

theorem setAssoc_mem {l : List (Case × List Activity)} {c : Case} {v : List Activity}
    {p : Case × List Activity} (h : p ∈ setAssoc l c v) : p = (c, v) ∨ p ∈ l := by
  induction l with
  | nil => simp [setAssoc] at h; simp [h]
  | cons hd tl ih =>
    obtain ⟨k, w⟩ := hd
    by_cases hk : k = c
    · subst hk
      simp only [setAssoc, if_true, eq_self_iff_true, List.mem_cons] at h
      rcases h with h | h
      · exact Or.inl (by simp [h])
      · exact Or.inr (List.mem_cons_of_mem _ h)
    · simp only [setAssoc, if_neg hk, List.mem_cons] at h
      rcases h with h | h
      · exact Or.inr (by simp [h])
      · rcases ih h with h' | h'
        · exact Or.inl h'
        · exact Or.inr (List.mem_cons_of_mem _ h')

theorem setAssoc_map_fst {l : List (Case × List Activity)} {c : Case} {v : List Activity}
    (h : c ∈ l.map Prod.fst) : (setAssoc l c v).map Prod.fst = l.map Prod.fst := by
  induction l with
  | nil => simp at h
  | cons hd tl ih =>
    obtain ⟨k, w⟩ := hd
    by_cases hk : k = c
    · subst hk; simp [setAssoc]
    · simp only [List.map_cons, List.mem_cons] at h
      rcases h with h | h
      · exact absurd h.symm hk
      · simp [setAssoc, hk, ih h]

theorem setAssoc_lookup_ne {l : List (Case × List Activity)} {c c' : Case}
    {v : List Activity} (h : c' ≠ c) :
    lookupAssoc (setAssoc l c v) c' = lookupAssoc l c' := by
  induction l with
  | nil => simp [setAssoc, lookupAssoc, Ne.symm h]
  | cons hd tl ih =>
    obtain ⟨k, w⟩ := hd
    by_cases hk : k = c
    · subst hk
      simp only [setAssoc, lookupAssoc, if_true, eq_self_iff_true]
      rw [if_neg (fun hc : k = c' => h hc.symm), if_neg (fun hc : k = c' => h hc.symm)]
    · simp [setAssoc, lookupAssoc, hk, ih]

theorem setAssoc_lookup_self {l : List (Case × List Activity)} {c : Case}
    {v : List Activity} : lookupAssoc (setAssoc l c v) c = some v := by
  induction l with
  | nil => simp [setAssoc, lookupAssoc]
  | cons hd tl ih =>
    obtain ⟨k, w⟩ := hd
    by_cases hk : k = c
    · subst hk; simp [setAssoc, lookupAssoc]
    · simp [setAssoc, lookupAssoc, hk, ih]

theorem lookupAssoc_append_ne {l : List (Case × List Activity)} {c c' : Case}
    {v : List Activity} (h : c' ≠ c) :
    lookupAssoc (l ++ [(c, v)]) c' = lookupAssoc l c' := by
  induction l with
  | nil => simp [lookupAssoc, Ne.symm h]
  | cons hd tl ih =>
    obtain ⟨k, w⟩ := hd
    by_cases hk : k = c'
    · subst hk; simp [lookupAssoc]
    · simp [lookupAssoc, hk, ih]

theorem lookupAssoc_append_self {l : List (Case × List Activity)} {c : Case}
    {v : List Activity} (h : lookupAssoc l c = none) :
    lookupAssoc (l ++ [(c, v)]) c = some v := by
  induction l with
  | nil => simp [lookupAssoc]
  | cons hd tl ih =>
    obtain ⟨k, w⟩ := hd
    by_cases hk : k = c
    · subst hk; simp [lookupAssoc] at h
    · simp only [lookupAssoc, if_neg hk] at h
      simp [lookupAssoc, hk, ih h]

theorem counterAdd_mem {l : List (Variant × Nat)} {v : Variant}
    {p : Variant × Nat} (h : p ∈ counterAdd l v) : p.1 = v ∨ p ∈ l := by
  induction l with
  | nil => simp [counterAdd] at h; simp [h]
  | cons hd tl ih =>
    obtain ⟨k, n⟩ := hd
    by_cases hk : k = v
    · subst hk
      simp only [counterAdd, if_true, eq_self_iff_true, List.mem_cons] at h
      rcases h with h | h
      · exact Or.inl (by simp [h])
      · exact Or.inr (List.mem_cons_of_mem _ h)
    · simp only [counterAdd, if_neg hk, List.mem_cons] at h
      rcases h with h | h
      · exact Or.inr (by simp [h])
      · rcases ih h with h' | h'
        · exact Or.inl h'
        · exact Or.inr (List.mem_cons_of_mem _ h')

theorem counterAdd_map_fst (l : List (Variant × Nat)) (v : Variant) :
    (counterAdd l v).map Prod.fst =
      if v ∈ l.map Prod.fst then l.map Prod.fst else l.map Prod.fst ++ [v] := by
  induction l with
  | nil => simp [counterAdd]
  | cons hd tl ih =>
    obtain ⟨k, n⟩ := hd
    by_cases hk : k = v
    · subst hk; simp [counterAdd]
    · by_cases hm : v ∈ tl.map Prod.fst
      · simp [counterAdd, hk, ih, hm, Ne.symm hk]
      · simp [counterAdd, hk, ih, hm, Ne.symm hk]

end PM

namespace PM

theorem hasTriple_append : ∀ (l : List Activity) (a : Activity),
    hasTriple (l ++ [a]) =
      (hasTriple l || (decide (l.getLast? = some a) && decide (l.dropLast.getLast? = some a)))
  | [], a => by simp [hasTriple]
  | [x], a => by simp [hasTriple]
  | [x, y], a => by
    by_cases hxy : x = y <;> by_cases hya : y = a <;> by_cases hxa : x = a <;>
      simp_all [hasTriple]
  | x :: y :: z :: rest, a => by
    have ih := hasTriple_append (y :: z :: rest) a
    simp only [List.cons_append, hasTriple, List.append_eq] at ih ⊢
    rw [ih]
    simp only [List.dropLast_cons₂, List.getLast?_cons_cons, Bool.or_assoc]

theorem noTriple_snoc {buf : List Activity} {a : Activity}
    (h : hasTriple buf = false)
    (hg : buf.length = 1 ∨ ¬ buf.getLast? = some a ∨ ¬ buf.dropLast.getLast? = some a) :
    hasTriple (buf ++ [a]) = false := by
  rw [hasTriple_append, h]
  rcases hg with hg | hg | hg
  · match buf, hg with
    | [x], _ => simp
  · simp [hg]
  · simp [hg]

end PM

namespace PM

theorem take_sort_spec {α : Type} (r : α → α → Prop) [DecidableRel r]
    [IsTotal α r] [IsTrans α r] (l : List α) (k : Nat) :
    ((List.insertionSort r l).take k).length = min k l.length ∧
    ((List.insertionSort r l).take k).Pairwise r ∧
    (∀ x ∈ (List.insertionSort r l).take k, x ∈ l) ∧
    (∀ x ∈ (List.insertionSort r l).take k,
       ∀ y ∈ l, y ∉ (List.insertionSort r l).take k → r x y) := by
  have hsort : List.Sorted r (List.insertionSort r l) := List.sorted_insertionSort r l
  have hperm : (List.insertionSort r l).Perm l := List.perm_insertionSort r l
  refine ⟨?_, ?_, ?_, ?_⟩
  · rw [List.length_take, hperm.length_eq]
  · exact List.Pairwise.sublist (List.take_sublist k (List.insertionSort r l)) hsort
  · intro x hx
    exact hperm.mem_iff.mp (List.mem_of_mem_take hx)
  · intro x hx y hy hyn
    have hys : y ∈ List.insertionSort r l := hperm.mem_iff.mpr hy
    have hyd : y ∈ (List.insertionSort r l).drop k := by
      rcases (List.mem_append.mp (by
        rw [List.take_append_drop k (List.insertionSort r l)]; exact hys)) with h | h
      · exact absurd h hyn
      · exact h
    exact hsort.rel_of_mem_take_of_mem_drop hx hyd

theorem countOf_eq {l : List (Variant × Nat)} {v : Variant} {n : Nat}
    (hkeys : (l.map Prod.fst).Nodup) (h : (v, n) ∈ l) : countOf l v = n := by
  induction l with
  | nil => simp at h
  | cons hd tl ih =>
    obtain ⟨k, m⟩ := hd
    simp only [List.map_cons, List.nodup_cons] at hkeys
    rcases List.mem_cons.mp h with h' | h'
    · simp only [Prod.mk.injEq] at h'
      simp [countOf, h'.1, h'.2]
    · have hne : k ≠ v := by
        intro he
        subst he
        exact hkeys.1 (List.mem_map_of_mem Prod.fst h')
      simp [countOf, hne, ih hkeys.2 h']

end PM

namespace PM

theorem learn_model_some {M : Type} {B : Backend M} {s : MinerState M} {bv : List Variant}
    (h : s.best_variants = some bv) :
    learn_model B s = .ok
      { s with models := s.models ++ [B.learn bv]
               learn_calls := s.learn_calls + 1 } := by
  simp [learn_model, h]

theorem eval_one_ok {M : Type} {B : Backend M} {m : M} {t : Variant} {r : List ℚ}
    (h : eval_one B m t = .ok r) :
    ∃ fm, f_measure (B.fitness m t) (B.precision m t) = .ok fm ∧
      r = [B.fitness m t, B.precision m t, fm] := by
  unfold eval_one at h
  split at h
  · exact Except.noConfusion h
  · rename_i fm heq
    cases h
    exact ⟨fm, heq, rfl⟩

theorem evaluate_model_ok {M : Type} {B : Backend M} {s s' : MinerState M} {t : Variant}
    (h : evaluate_model B s t = .ok s') :
    ∃ current initial fm1 fm2,
      s.models.getLast? = some current ∧ s.models.head? = some initial ∧
      f_measure (B.fitness current t) (B.precision current t) = .ok fm1 ∧
      f_measure (B.fitness initial t) (B.precision initial t) = .ok fm2 ∧
      s' = { s with
        evaluations := s.evaluations ++
          [[B.fitness current t, B.precision current t, fm1,
            B.fitness initial t, B.precision initial t, fm2]]
        eval_calls := s.eval_calls + 1 } := by
  unfold evaluate_model at h
  split at h
  · rename_i current initial heq1 heq2
    split at h
    · exact Except.noConfusion h
    · rename_i r1 hr1
      split at h
      · exact Except.noConfusion h
      · rename_i r2 hr2
        obtain ⟨fm1, hm1, he1⟩ := eval_one_ok hr1
        obtain ⟨fm2, hm2, he2⟩ := eval_one_ok hr2
        subst he1
        subst he2
        refine ⟨current, initial, fm1, fm2, heq1, heq2, hm1, hm2, ?_⟩
        cases h
        rfl
  · exact Except.noConfusion h


theorem process_event_final_missing {M : Type} {B : Backend M} {cfg : Config}
    {s : MinerState M} {e : Event}
    (hfin : e.activity = FINAL_ACTIVITY)
    (hpop : popAssoc s.traces e.case_id = none) :
    process_event B cfg s e = .error .keyError := by
  unfold process_event
  rw [if_pos hfin, hpop]

theorem process_event_final_hit {M : Type} {B : Backend M} {cfg : Config}
    {s : MinerState M} {e : Event} {buf : List Activity}
    {tr' : List (Case × List Activity)}
    (hfin : e.activity = FINAL_ACTIVITY)
    (hpop : popAssoc s.traces e.case_id = some (buf, tr'))
    (hcut : ((s.processed_traces + 1 : Nat) : Int) = cfg.cut_point) :
    process_event B cfg s e = .ok
      { s with traces := tr'
               variants := counterAdd s.variants buf
               processed_traces := s.processed_traces + 1
               best_variants := some (select_best_variants cfg.order cfg.top_variants
                 (counterAdd s.variants buf))
               drifts := s.drifts ++ [(s.processed_traces + 1,
                 select_best_variants cfg.order cfg.top_variants (counterAdd s.variants buf))]
               models := s.models ++ [B.learn (select_best_variants cfg.order cfg.top_variants
                 (counterAdd s.variants buf))]
               learn_calls := s.learn_calls + 1 } := by
  unfold process_event
  rw [if_pos hfin, hpop]
  simp only [hcut, if_true, eq_self_iff_true, learn_model]

theorem process_event_final_before {M : Type} {B : Backend M} {cfg : Config}
    {s : MinerState M} {e : Event} {buf : List Activity}
    {tr' : List (Case × List Activity)}
    (hfin : e.activity = FINAL_ACTIVITY)
    (hpop : popAssoc s.traces e.case_id = some (buf, tr'))
    (hne : ¬ ((s.processed_traces + 1 : Nat) : Int) = cfg.cut_point)
    (hngt : ¬ ((s.processed_traces + 1 : Nat) : Int) > cfg.cut_point) :
    process_event B cfg s e = .ok
      { s with traces := tr'
               variants := counterAdd s.variants buf
               processed_traces := s.processed_traces + 1 } := by
  unfold process_event
  rw [if_pos hfin, hpop]
  simp only [if_neg hne, if_neg hngt]

theorem process_event_final_after {M : Type} {B : Backend M} {cfg : Config}
    {s s' : MinerState M} {e : Event} {buf : List Activity}
    {tr' : List (Case × List Activity)}
    (hfin : e.activity = FINAL_ACTIVITY)
    (hpop : popAssoc s.traces e.case_id = some (buf, tr'))
    (hgt : ((s.processed_traces + 1 : Nat) : Int) > cfg.cut_point)
    (hok : process_event B cfg s e = .ok s') :
    ∃ last current initial fm1 fm2,
      s.drifts.getLast? = some last ∧
      s.models.getLast? = some current ∧
      s.models.head? = some initial ∧
      f_measure (B.fitness current buf) (B.precision current buf) = .ok fm1 ∧
      f_measure (B.fitness initial buf) (B.precision initial buf) = .ok fm2 ∧
      s'.evaluations = s.evaluations ++
        [[B.fitness current buf, B.precision current buf, fm1,
          B.fitness initial buf, B.precision initial buf, fm2]] ∧
      s'.eval_calls = s.eval_calls + 1 ∧
      s'.traces = tr' ∧
      s'.variants = counterAdd s.variants buf ∧
      s'.processed_traces = s.processed_traces + 1 ∧
      s'.best_variants = some (select_best_variants cfg.order cfg.top_variants
        (counterAdd s.variants buf)) ∧
      (select_best_variants cfg.order cfg.top_variants (counterAdd s.variants buf) ≠ last.2 →
        s'.drifts = s.drifts ++ [(s.processed_traces + 1,
          select_best_variants cfg.order cfg.top_variants (counterAdd s.variants buf))] ∧
        s'.models = s.models ++ [B.learn (select_best_variants cfg.order cfg.top_variants
          (counterAdd s.variants buf))] ∧
        s'.learn_calls = s.learn_calls + 1) ∧
      (select_best_variants cfg.order cfg.top_variants (counterAdd s.variants buf) = last.2 →
        s'.drifts = s.drifts ∧ s'.models = s.models ∧ s'.learn_calls = s.learn_calls) := by
  have hne : ¬ ((s.processed_traces + 1 : Nat) : Int) = cfg.cut_point := by
    intro h
    rw [h] at hgt
    exact lt_irrefl _ hgt
  unfold process_event at hok
  rw [if_pos hfin, hpop] at hok
  simp only [if_neg hne, if_pos hgt] at hok
  split at hok
  · exact Except.noConfusion hok
  · rename_i s2 hev
    obtain ⟨current, initial, fm1, fm2, hl, hh, hf1, hf2, hs2⟩ := evaluate_model_ok hev
    subst hs2
    split at hok
    · exact Except.noConfusion hok
    · rename_i last hlast
      split at hok
      · rename_i hd
        rw [learn_model_some rfl] at hok
        cases hok
        exact ⟨last, current, initial, fm1, fm2, hlast, hl, hh, hf1, hf2, rfl, rfl, rfl, rfl,
          rfl, rfl, fun _ => ⟨rfl, rfl, rfl⟩, fun hcon => absurd hcon hd⟩
      · rename_i hd
        cases hok
        rw [not_not] at hd
        exact ⟨last, current, initial, fm1, fm2, hlast, hl, hh, hf1, hf2, rfl, rfl, rfl, rfl,
          rfl, rfl, fun hcon => absurd hd hcon, fun _ => ⟨rfl, rfl, rfl⟩⟩

end PM

namespace PM

theorem counterAdd_keys_nodup {l : List (Variant × Nat)} {v : Variant}
    (h : (l.map Prod.fst).Nodup) : ((counterAdd l v).map Prod.fst).Nodup := by
  rw [counterAdd_map_fst]
  by_cases hm : v ∈ l.map Prod.fst
  · rw [if_pos hm]; exact h
  · rw [if_neg hm]
    exact h.append (List.nodup_singleton v) (List.disjoint_singleton.mpr hm)

theorem counterAdd_noTriple {l : List (Variant × Nat)} {v : Variant}
    (h : ∀ p ∈ l, hasTriple p.1 = false) (hv : hasTriple v = false) :
    ∀ p ∈ counterAdd l v, hasTriple p.1 = false := by
  intro p hp
  rcases counterAdd_mem hp with h' | h'
  · rw [h']; exact hv
  · exact h p h'

theorem process_event_new_case {M : Type} {B : Backend M} {cfg : Config}
    {s : MinerState M} {e : Event}
    (hnf : ¬ e.activity = FINAL_ACTIVITY)
    (hlk : lookupAssoc s.traces e.case_id = none) :
    process_event B cfg s e = .ok
      { s with traces := s.traces ++ [(e.case_id, [e.activity])] } := by
  unfold process_event
  rw [if_neg hnf, hlk]

theorem process_event_grow {M : Type} {B : Backend M} {cfg : Config}
    {s : MinerState M} {e : Event} {buf : List Activity}
    (hnf : ¬ e.activity = FINAL_ACTIVITY)
    (hlk : lookupAssoc s.traces e.case_id = some buf)
    (hbuf : buf ≠ [])
    (hg : buf.length = 1 ∨ ¬ buf.getLast? = some e.activity ∨
      ¬ buf.dropLast.getLast? = some e.activity) :
    process_event B cfg s e = .ok
      { s with traces := setAssoc s.traces e.case_id (buf ++ [e.activity]) } := by
  unfold process_event
  rw [if_neg hnf, hlk]
  cases hga : buf.getLast? with
  | none => exact absurd (List.getLast?_eq_none_iff.mp hga) hbuf
  | some lastAct =>
    have hg' : buf.length = 1 ∨ ¬ lastAct = e.activity ∨
        ¬ buf.dropLast.getLast? = some e.activity := by
      rcases hg with h | h | h
      · exact Or.inl h
      · exact Or.inr (Or.inl (fun hc => h (by rw [hga, hc])))
      · exact Or.inr (Or.inr h)
    simp only [hga, if_pos hg']

theorem process_event_skip {M : Type} {B : Backend M} {cfg : Config}
    {s : MinerState M} {e : Event} {buf : List Activity}
    (hnf : ¬ e.activity = FINAL_ACTIVITY)
    (hlk : lookupAssoc s.traces e.case_id = some buf)
    (hg : ¬ (buf.length = 1 ∨ ¬ buf.getLast? = some e.activity ∨
      ¬ buf.dropLast.getLast? = some e.activity)) :
    process_event B cfg s e = .ok s := by
  push_neg at hg
  obtain ⟨hlen, hlast, hdl⟩ := hg
  unfold process_event
  rw [if_neg hnf, hlk]
  cases hga : buf.getLast? with
  | none => rw [hlast] at hga; cases hga
  | some lastAct =>
    have hle : lastAct = e.activity := by
      have h2 := hga.symm.trans hlast
      injection h2
    subst hle
    have hg' : ¬ (buf.length = 1 ∨ ¬ e.activity = e.activity ∨
        ¬ buf.dropLast.getLast? = some e.activity) := by
      push_neg
      exact ⟨hlen, rfl, hdl⟩
    simp only [hga, if_neg hg']

end PM

namespace PM

theorem Inv.base {M : Type} (cfg : Config) : Inv cfg (initState M) := by
  constructor <;> simp [initState]

theorem Inv.step {M : Type} {B : Backend M} {cfg : Config} {s s' : MinerState M} {e : Event}
    (hs : Inv cfg s) (hok : process_event B cfg s e = .ok s') : Inv cfg s' := by
  by_cases hfin : e.activity = FINAL_ACTIVITY
  · cases hpop : popAssoc s.traces e.case_id with
    | none =>
      rw [process_event_final_missing hfin hpop] at hok
      exact Except.noConfusion hok
    | some pr =>
      obtain ⟨buf, tr'⟩ := pr
      obtain ⟨l1, l2, hdec, hni, htr⟩ := popAssoc_some hpop
      have htr_sub : tr'.Sublist s.traces := by
        rw [htr, hdec]
        exact List.Sublist.append_left (List.sublist_cons_self _ _) l1
      have htk : (tr'.map Prod.fst).Nodup :=
        List.Nodup.sublist (htr_sub.map Prod.fst) hs.traces_keys
      have htne : ∀ p ∈ tr', p.2 ≠ [] := fun p hp => hs.traces_ne p (htr_sub.subset hp)
      have htnt : ∀ p ∈ tr', hasTriple p.2 = false :=
        fun p hp => hs.traces_noTriple p (htr_sub.subset hp)
      have hbufmem : (e.case_id, buf) ∈ s.traces := by
        rw [hdec]
        exact List.mem_append_right _ (List.mem_cons_self _ _)
      have hbuf3 : hasTriple buf = false := hs.traces_noTriple _ hbufmem
      have hvk : ((counterAdd s.variants buf).map Prod.fst).Nodup :=
        counterAdd_keys_nodup hs.variants_keys
      have hvn : ∀ p ∈ counterAdd s.variants buf, hasTriple p.1 = false :=
        counterAdd_noTriple hs.variants_noTriple hbuf3
      rcases lt_trichotomy ((s.processed_traces + 1 : Nat) : Int) cfg.cut_point
        with hlt | heq | hgt
      · rw [process_event_final_before hfin hpop (ne_of_lt hlt) (not_lt.mpr hlt.le)] at hok
        cases hok
        exact {
          traces_keys := htk
          traces_ne := htne
          traces_noTriple := htnt
          variants_keys := hvk
          variants_noTriple := hvn
          drift_le := fun d hd => (hs.drift_le d hd).trans (Nat.le_succ _)
          drift_mono := hs.drift_mono
          drift_first := hs.drift_first
          len_models := hs.len_models
          len_learn := hs.len_learn }
      · have hnil : s.drifts = [] := by
          cases hd : s.drifts with
          | nil => rfl
          | cons d0 rest =>
            have h1 : (d0.1 : Int) = cfg.cut_point := hs.drift_first d0 (by rw [hd]; rfl)
            have h2 : d0.1 ≤ s.processed_traces :=
              hs.drift_le d0 (by rw [hd]; exact List.mem_cons_self _ _)
            have h3 : ((s.processed_traces + 1 : Nat) : Int) = (d0.1 : Int) :=
              heq.trans h1.symm
            have h4 : s.processed_traces + 1 = d0.1 := Nat.cast_inj.mp h3
            omega
        rw [process_event_final_hit hfin hpop heq] at hok
        cases hok
        refine {
          traces_keys := htk
          traces_ne := htne
          traces_noTriple := htnt
          variants_keys := hvk
          variants_noTriple := hvn
          drift_le := ?_
          drift_mono := ?_
          drift_first := ?_
          len_models := ?_
          len_learn := ?_ }
        · intro d hd
          rw [hnil] at hd
          simp at hd
          rw [hd]
        · rw [hnil]
          simp
        · intro d hd
          rw [hnil] at hd
          simp [Option.mem_def] at hd
          rw [← hd]
          exact heq
        · have h0 : s.models.length = 0 := by rw [← hs.len_models, hnil]; rfl
          simp [hnil, h0]
        · simp [hs.len_learn]
      · obtain ⟨last, current, initial, fm1, fm2, hlast, hl, hh, hf1, hf2, hev, hec, htr2,
          hvar, hproc, hbv, hdif, hsame⟩ := process_event_final_after hfin hpop hgt hok
        by_cases hd : select_best_variants cfg.order cfg.top_variants
            (counterAdd s.variants buf) = last.2
        · obtain ⟨hd1, hd2, hd3⟩ := hsame hd
          exact {
            traces_keys := by rw [htr2]; exact htk
            traces_ne := by rw [htr2]; exact htne
            traces_noTriple := by rw [htr2]; exact htnt
            variants_keys := by rw [hvar]; exact hvk
            variants_noTriple := by rw [hvar]; exact hvn
            drift_le := by
              intro d hdm
              rw [hd1] at hdm
              rw [hproc]
              exact (hs.drift_le d hdm).trans (Nat.le_succ _)
            drift_mono := by rw [hd1]; exact hs.drift_mono
            drift_first := by rw [hd1]; exact hs.drift_first
            len_models := by rw [hd1, hd2]; exact hs.len_models
            len_learn := by rw [hd2, hd3]; exact hs.len_learn }
        · obtain ⟨hd1, hd2, hd3⟩ := hdif hd
          have hdne : s.drifts ≠ [] := by
            intro h0
            rw [h0] at hlast
            cases hlast
          exact {
            traces_keys := by rw [htr2]; exact htk
            traces_ne := by rw [htr2]; exact htne
            traces_noTriple := by rw [htr2]; exact htnt
            variants_keys := by rw [hvar]; exact hvk
            variants_noTriple := by rw [hvar]; exact hvn
            drift_le := by
              intro d hdm
              rw [hd1] at hdm
              rw [hproc]
              rcases List.mem_append.mp hdm with h | h
              · exact (hs.drift_le d h).trans (Nat.le_succ _)
              · simp at h
                rw [h]
            drift_mono := by
              rw [hd1, List.map_append]
              refine List.chain'_append.mpr ⟨hs.drift_mono, List.chain'_singleton _, ?_⟩
              intro x hx y hy
              simp [Option.mem_def] at hy
              subst hy
              rw [Option.mem_def, List.getLast?_map] at hx
              cases hgl : s.drifts.getLast? with
              | none => rw [hgl] at hx; cases hx
              | some dl =>
                rw [hgl] at hx
                simp at hx
                subst hx
                have hle := hs.drift_le dl (List.mem_of_mem_getLast? (by simp [hgl]))
                omega
            drift_first := by
              rw [hd1]
              intro d hd'
              cases hh0 : s.drifts with
              | nil => exact absurd hh0 hdne
              | cons d0 rest =>
                rw [hh0] at hd'
                simp [Option.mem_def] at hd'
                rw [← hd']
                exact hs.drift_first d0 (by rw [hh0]; rfl)
            len_models := by rw [hd1, hd2]; simp [hs.len_models]
            len_learn := by rw [hd2, hd3]; simp [hs.len_learn] }
  · cases hlk : lookupAssoc s.traces e.case_id with
    | none =>
      rw [process_event_new_case hfin hlk] at hok
      cases hok
      have hcnot : e.case_id ∉ s.traces.map Prod.fst := lookupAssoc_eq_none.mp hlk
      exact {
        traces_keys := by
          rw [List.map_append]
          exact hs.traces_keys.append (List.nodup_singleton _)
            (List.disjoint_singleton.mpr (by simpa using hcnot))
        traces_ne := by
          intro p hp
          rcases List.mem_append.mp hp with h | h
          · exact hs.traces_ne p h
          · simp at h
            rw [h]
            simp
        traces_noTriple := by
          intro p hp
          rcases List.mem_append.mp hp with h | h
          · exact hs.traces_noTriple p h
          · simp at h
            rw [h]
            rfl
        variants_keys := hs.variants_keys
        variants_noTriple := hs.variants_noTriple
        drift_le := hs.drift_le
        drift_mono := hs.drift_mono
        drift_first := hs.drift_first
        len_models := hs.len_models
        len_learn := hs.len_learn }
    | some buf =>
      have hbufne : buf ≠ [] := hs.traces_ne _ (lookupAssoc_mem hlk)
      by_cases hg : buf.length = 1 ∨ ¬ buf.getLast? = some e.activity ∨
          ¬ buf.dropLast.getLast? = some e.activity
      · rw [process_event_grow hfin hlk hbufne hg] at hok
        cases hok
        have hmem : e.case_id ∈ s.traces.map Prod.fst :=
          List.mem_map_of_mem Prod.fst (lookupAssoc_mem hlk)
        exact {
          traces_keys := by rw [setAssoc_map_fst hmem]; exact hs.traces_keys
          traces_ne := by
            intro p hp
            rcases setAssoc_mem hp with h | h
            · rw [h]; simp
            · exact hs.traces_ne p h
          traces_noTriple := by
            intro p hp
            rcases setAssoc_mem hp with h | h
            · rw [h]
              exact noTriple_snoc (hs.traces_noTriple _ (lookupAssoc_mem hlk)) hg
            · exact hs.traces_noTriple p h
          variants_keys := hs.variants_keys
          variants_noTriple := hs.variants_noTriple
          drift_le := hs.drift_le
          drift_mono := hs.drift_mono
          drift_first := hs.drift_first
          len_models := hs.len_models
          len_learn := hs.len_learn }
      · rw [process_event_skip hfin hlk hg] at hok
        cases hok
        exact hs

theorem Inv.run {M : Type} {B : Backend M} {cfg : Config} {s s' : MinerState M}
    {es : List Event} (hs : Inv cfg s) (hok : process_stream B cfg s es = .ok s') :
    Inv cfg s' := by
  induction es generalizing s with
  | nil =>
    unfold process_stream at hok
    cases hok
    exact hs
  | cons e rest ih =>
    unfold process_stream at hok
    cases hstep : process_event B cfg s e with
    | error err => rw [hstep] at hok; cases hok
    | ok s1 =>
      rw [hstep] at hok
      exact ih (hs.step hstep) hok

end PM

namespace PM

/-- C1: after the warm-up cut point, a finalized trace makes the scheduler
recompute the ordered top-variant sequence over the updated counter; a new
drift record carrying the current processed-trace count is appended and
the model-learning backend is invoked exactly once iff that sequence
differs (by value, in order) from the variants of the most recent drift
record; otherwise the drift list and model list are unchanged. -/
theorem drift_iff_top_variants_change {M : Type} {B : Backend M} {cfg : Config}
    {s s' : MinerState M} {e : Event} {buf : List Activity}
    {tr' : List (Case × List Activity)}
    (hfin : e.activity = FINAL_ACTIVITY)
    (hpop : popAssoc s.traces e.case_id = some (buf, tr'))
    (hgt : ((s.processed_traces + 1 : Nat) : Int) > cfg.cut_point)
    (hok : process_event B cfg s e = .ok s') :
    ∃ last, s.drifts.getLast? = some last ∧
      (select_best_variants cfg.order cfg.top_variants (counterAdd s.variants buf) ≠ last.2 →
        s'.drifts = s.drifts ++ [(s.processed_traces + 1,
          select_best_variants cfg.order cfg.top_variants (counterAdd s.variants buf))] ∧
        s'.models.length = s.models.length + 1 ∧
        s'.learn_calls = s.learn_calls + 1) ∧
      (select_best_variants cfg.order cfg.top_variants (counterAdd s.variants buf) = last.2 →
        s'.drifts = s.drifts ∧ s'.models = s.models ∧ s'.learn_calls = s.learn_calls) := by
  obtain ⟨last, current, initial, fm1, fm2, hlast, _, _, _, _, _, _, _, _, _, _,
    hdif, hsame⟩ := process_event_final_after hfin hpop hgt hok
  refine ⟨last, hlast, fun hne => ?_, hsame⟩
  obtain ⟨h1, h2, h3⟩ := hdif hne
  refine ⟨h1, ?_, h3⟩
  rw [h2]
  simp

/-- C2: a non-sentinel event appends its activity to the case buffer
unless the buffer already ends in two copies of that activity; hence every
recorded variant is free of triple repetitions, and the event sequence
A, A, A, A, B for one case yields the variant (A, A, B). -/
theorem collapse_policy_no_triple {M : Type} (B : Backend M) (cfg : Config)
    (es : List Event) (s : MinerState M)
    (hrun : process_stream B cfg (initState M) es = .ok s) :
    (∀ p ∈ s.variants, hasTriple p.1 = false) ∧
    (∀ (t : MinerState M) (e : Event) (buf : List Activity),
      e.activity ≠ FINAL_ACTIVITY →
      lookupAssoc t.traces e.case_id = some buf → buf ≠ [] →
      process_event B cfg t e =
        .ok (if 2 ≤ buf.length ∧ buf.getLast? = some e.activity ∧
               buf.dropLast.getLast? = some e.activity
             then t
             else { t with traces := setAssoc t.traces e.case_id (buf ++ [e.activity]) })) ∧
    process_stream B1 cfgBig (initState (List Variant))
      [⟨"c", "A"⟩, ⟨"c", "A"⟩, ⟨"c", "A"⟩, ⟨"c", "A"⟩, ⟨"c", "B"⟩, ⟨"c", FINAL_ACTIVITY⟩] =
      .ok { initState (List Variant) with
            processed_traces := 1
            variants := [(["A", "A", "B"], 1)] } := by
  refine ⟨(Inv.run (Inv.base cfg) hrun).variants_noTriple, ?_, by decide⟩
  intro t e buf hnf hlk hbufne
  by_cases hcol : 2 ≤ buf.length ∧ buf.getLast? = some e.activity ∧
      buf.dropLast.getLast? = some e.activity
  · rw [if_pos hcol]
    apply process_event_skip hnf hlk
    push_neg
    obtain ⟨h1, h2, h3⟩ := hcol
    exact ⟨by omega, h2, h3⟩
  · rw [if_neg hcol]
    apply process_event_grow hnf hlk hbufne
    push_neg at hcol
    by_cases hl1 : buf.length = 1
    · exact Or.inl hl1
    · have h2le : 2 ≤ buf.length := by
        cases buf with
        | nil => exact absurd rfl hbufne
        | cons x rest =>
          cases rest with
          | nil => exact absurd rfl hl1
          | cons y r2 => simp [List.length_cons]
      rcases Classical.em (buf.getLast? = some e.activity) with h2 | h2
      · exact Or.inr (Or.inr (hcol h2le h2))
      · exact Or.inr (Or.inl h2)

/-- C3: drift-record trace counts are strictly increasing, the first drift
record's count equals the configured cut point, and when the trace counter
reaches the cut point the first record `(cut_point, selected variants)` is
created. -/
theorem drift_counts_strict_mono_first_at_cut {M : Type} (B : Backend M) (cfg : Config)
    (es : List Event) (s : MinerState M)
    (hrun : process_stream B cfg (initState M) es = .ok s) :
    List.Chain' (· < ·) (s.drifts.map Prod.fst) ∧
    (∀ d ∈ s.drifts.head?, (d.1 : Int) = cfg.cut_point) ∧
    (∀ (e : Event) (buf : List Activity) (tr' : List (Case × List Activity)),
      e.activity = FINAL_ACTIVITY →
      popAssoc s.traces e.case_id = some (buf, tr') →
      ((s.processed_traces + 1 : Nat) : Int) = cfg.cut_point →
      ∃ s', process_event B cfg s e = .ok s' ∧
        s'.drifts = [(s.processed_traces + 1, select_best_variants cfg.order
          cfg.top_variants (counterAdd s.variants buf))] ∧
        (s'.processed_traces : Int) = cfg.cut_point) := by
  have hinv : Inv cfg s := Inv.run (Inv.base cfg) hrun
  refine ⟨hinv.drift_mono, hinv.drift_first, ?_⟩
  intro e buf tr' hfin hpop hcut
  have hnil : s.drifts = [] := by
    cases hd : s.drifts with
    | nil => rfl
    | cons d0 rest =>
      have h1 := hinv.drift_first d0 (by rw [hd]; rfl)
      have h2 := hinv.drift_le d0 (by rw [hd]; exact List.mem_cons_self _ _)
      have h4 : s.processed_traces + 1 = d0.1 := Nat.cast_inj.mp (hcut.trans h1.symm)
      omega
  refine ⟨_, process_event_final_hit hfin hpop hcut, ?_, hcut⟩
  simp [hnil]

/-- C4: at every point of processing the number of drift records equals
the number of learned models, which equals the number of learning-backend
invocations. -/
theorem drift_records_match_models {M : Type} (B : Backend M) (cfg : Config)
    (es : List Event) (s : MinerState M)
    (hrun : process_stream B cfg (initState M) es = .ok s) :
    s.drifts.length = s.models.length ∧ s.models.length = s.learn_calls := by
  have hinv : Inv cfg s := Inv.run (Inv.base cfg) hrun
  exact ⟨hinv.len_models, hinv.len_learn⟩

/-- C6: a trace finalized strictly after the cut point appends exactly one
six-number evaluation record — fitness, precision, f-measure against the
current model (last of the model list, still the pre-drift-check list),
then the same three against the initial model (head) — while a trace
finalized at or before the cut point appends none. -/
theorem evaluation_per_post_warmup_trace {M : Type} {B : Backend M} {cfg : Config}
    {s : MinerState M} {e : Event} {buf : List Activity}
    {tr' : List (Case × List Activity)}
    (hfin : e.activity = FINAL_ACTIVITY)
    (hpop : popAssoc s.traces e.case_id = some (buf, tr')) :
    (∀ s', ((s.processed_traces + 1 : Nat) : Int) > cfg.cut_point →
      process_event B cfg s e = .ok s' →
      ∃ current initial fm1 fm2,
        s.models.getLast? = some current ∧ s.models.head? = some initial ∧
        f_measure (B.fitness current buf) (B.precision current buf) = .ok fm1 ∧
        f_measure (B.fitness initial buf) (B.precision initial buf) = .ok fm2 ∧
        s'.evaluations = s.evaluations ++
          [[B.fitness current buf, B.precision current buf, fm1,
            B.fitness initial buf, B.precision initial buf, fm2]] ∧
        s'.eval_calls = s.eval_calls + 1) ∧
    (∀ s', ((s.processed_traces + 1 : Nat) : Int) ≤ cfg.cut_point →
      process_event B cfg s e = .ok s' →
      s'.evaluations = s.evaluations ∧ s'.eval_calls = s.eval_calls) := by
  constructor
  · intro s' hgt hok
    obtain ⟨last, current, initial, fm1, fm2, _, hl, hh, hf1, hf2, hev, hec, _, _, _, _,
      _, _⟩ := process_event_final_after hfin hpop hgt hok
    exact ⟨current, initial, fm1, fm2, hl, hh, hf1, hf2, hev, hec⟩
  · intro s' hle hok
    rcases eq_or_lt_of_le hle with heq | hlt
    · rw [process_event_final_hit hfin hpop heq] at hok
      cases hok
      exact ⟨rfl, rfl⟩
    · rw [process_event_final_before hfin hpop (ne_of_lt hlt) (not_lt.mpr hlt.le)] at hok
      cases hok
      exact ⟨rfl, rfl⟩

/-- C8: a sentinel event for a case with no open buffer aborts the run
with the missing-case (`KeyError`) error; for a case with an open buffer
the buffer is removed — the case no longer appears in the open-trace map —
and its contents are recorded as the finalized variant. -/
theorem final_event_pops_case_or_key_error {M : Type} (B : Backend M) (cfg : Config)
    (s : MinerState M) (e : Event) (hfin : e.activity = FINAL_ACTIVITY) :
    (lookupAssoc s.traces e.case_id = none →
      ∀ rest, process_stream B cfg s (e :: rest) = .error .keyError) ∧
    (∀ buf tr' s', popAssoc s.traces e.case_id = some (buf, tr') →
      (s.traces.map Prod.fst).Nodup →
      process_event B cfg s e = .ok s' →
      s'.traces = tr' ∧ lookupAssoc s'.traces e.case_id = none ∧
      s'.variants = counterAdd s.variants buf ∧
      s'.processed_traces = s.processed_traces + 1) := by
  constructor
  · intro hnone rest
    have hpop : popAssoc s.traces e.case_id = none := popAssoc_lookup_none.mpr hnone
    unfold process_stream
    rw [process_event_final_missing hfin hpop]
  · intro buf tr' s' hpop hkeys hok
    obtain ⟨l1, l2, hdec, hni, htr⟩ := popAssoc_some hpop
    have hlk' : lookupAssoc tr' e.case_id = none := by
      rw [lookupAssoc_eq_none, htr, List.map_append]
      intro hmem
      rcases List.mem_append.mp hmem with h | h
      · exact hni h
      · rw [hdec, List.map_append, List.map_cons] at hkeys
        have h2 := (List.nodup_append.mp hkeys).2.1
        exact (List.nodup_cons.mp h2).1 h
    rcases lt_trichotomy ((s.processed_traces + 1 : Nat) : Int) cfg.cut_point
      with hlt | heq | hgt
    · rw [process_event_final_before hfin hpop (ne_of_lt hlt) (not_lt.mpr hlt.le)] at hok
      cases hok
      exact ⟨rfl, hlk', rfl, rfl⟩
    · rw [process_event_final_hit hfin hpop heq] at hok
      cases hok
      exact ⟨rfl, hlk', rfl, rfl⟩
    · obtain ⟨last, current, initial, fm1, fm2, _, _, _, _, _, _, _, htr2, hvar, hproc,
        _, _, _⟩ := process_event_final_after hfin hpop hgt hok
      exact ⟨htr2, htr2 ▸ hlk', hvar, hproc⟩

/-- C10: a non-sentinel event leaves the trace counter, variant counter,
best variants, drift list, model list, evaluation list and both backend
invocation counters unchanged, touches no other case's buffer, and either
opens the case's buffer with exactly the incoming activity or appends at
most that one activity to it. -/
theorem nonfinal_event_frame {M : Type} {B : Backend M} {cfg : Config}
    {s s' : MinerState M} {e : Event}
    (hnf : e.activity ≠ FINAL_ACTIVITY)
    (hok : process_event B cfg s e = .ok s') :
    s'.processed_traces = s.processed_traces ∧
    s'.variants = s.variants ∧
    s'.best_variants = s.best_variants ∧
    s'.drifts = s.drifts ∧
    s'.models = s.models ∧
    s'.evaluations = s.evaluations ∧
    s'.learn_calls = s.learn_calls ∧
    s'.eval_calls = s.eval_calls ∧
    (∀ c, c ≠ e.case_id → lookupAssoc s'.traces c = lookupAssoc s.traces c) ∧
    ((lookupAssoc s.traces e.case_id = none ∧
        lookupAssoc s'.traces e.case_id = some [e.activity]) ∨
      (∃ buf, lookupAssoc s.traces e.case_id = some buf ∧
        (lookupAssoc s'.traces e.case_id = some buf ∨
         lookupAssoc s'.traces e.case_id = some (buf ++ [e.activity])))) := by
  cases hlk : lookupAssoc s.traces e.case_id with
  | none =>
    rw [process_event_new_case hnf hlk] at hok
    cases hok
    exact ⟨rfl, rfl, rfl, rfl, rfl, rfl, rfl, rfl,
      fun c hc => lookupAssoc_append_ne hc,
      Or.inl ⟨rfl, lookupAssoc_append_self hlk⟩⟩
  | some buf =>
    cases hbufc : buf.getLast? with
    | none =>
      exfalso
      have hb : buf = [] := List.getLast?_eq_none_iff.mp hbufc
      subst hb
      unfold process_event at hok
      rw [if_neg hnf, hlk] at hok
      simp at hok
    | some lastAct =>
      have hbufne : buf ≠ [] := by
        intro h
        rw [h] at hbufc
        cases hbufc
      by_cases hg : buf.length = 1 ∨ ¬ buf.getLast? = some e.activity ∨
          ¬ buf.dropLast.getLast? = some e.activity
      · rw [process_event_grow hnf hlk hbufne hg] at hok
        cases hok
        exact ⟨rfl, rfl, rfl, rfl, rfl, rfl, rfl, rfl,
          fun c hc => setAssoc_lookup_ne hc,
          Or.inr ⟨buf, rfl, Or.inr setAssoc_lookup_self⟩⟩
      · rw [process_event_skip hnf hlk hg] at hok
        cases hok
        exact ⟨rfl, rfl, rfl, rfl, rfl, rfl, rfl, rfl, fun c hc => rfl,
          Or.inr ⟨buf, rfl, Or.inl hlk⟩⟩

end PM

namespace PM

/-- C5: ranking correctness of `select_best_variants` on a variant index
with distinct keys, for every requested size `k ≥ 0`: under `FRQ` it
returns `min k n` variants in non-increasing occurrence-count order, each
counted at least as often as every unselected variant; under `MIN`
(shortest) non-decreasing length, each no longer than any unselected
variant; under `MAX` (longest) the mirror image.  Being a pure function of
the index, the selection (hence tie-breaking) is deterministic for a fixed
insertion history. -/
theorem select_top_ranking_correct (k : Int) (hk : 0 ≤ k)
    (c : List (Variant × Nat)) (hkeys : (c.map Prod.fst).Nodup) :
    ((select_best_variants .FRQ k c).length = min k.toNat c.length ∧
      (select_best_variants .FRQ k c).Pairwise (fun a b => countOf c b ≤ countOf c a) ∧
      (∀ v ∈ select_best_variants .FRQ k c, v ∈ c.map Prod.fst) ∧
      (∀ v ∈ select_best_variants .FRQ k c, ∀ q ∈ c,
        q.1 ∉ select_best_variants .FRQ k c → q.2 ≤ countOf c v)) ∧
    ((select_best_variants .MIN k c).length = min k.toNat c.length ∧
      (select_best_variants .MIN k c).Pairwise (fun a b => a.length ≤ b.length) ∧
      (∀ v ∈ select_best_variants .MIN k c, v ∈ c.map Prod.fst) ∧
      (∀ v ∈ select_best_variants .MIN k c, ∀ q ∈ c,
        q.1 ∉ select_best_variants .MIN k c → v.length ≤ q.1.length)) ∧
    ((select_best_variants .MAX k c).length = min k.toNat c.length ∧
      (select_best_variants .MAX k c).Pairwise (fun a b => b.length ≤ a.length) ∧
      (∀ v ∈ select_best_variants .MAX k c, v ∈ c.map Prod.fst) ∧
      (∀ v ∈ select_best_variants .MAX k c, ∀ q ∈ c,
        q.1 ∉ select_best_variants .MAX k c → q.1.length ≤ v.length)) := by
  have hFRQ : select_best_variants .FRQ k c =
      ((List.insertionSort byCountDesc c).take k.toNat).map Prod.fst := by
    show (mostCommon k c).map Prod.fst = _
    unfold mostCommon mostCommonAll
    by_cases h0 : k ≤ 0
    · have hk0 : k = 0 := le_antisymm h0 hk
      subst hk0
      simp
    · rw [if_neg h0]
  have hMIN : select_best_variants .MIN k c =
      (List.insertionSort byLenAsc ((List.insertionSort byCountDesc c).map Prod.fst)).take
        k.toNat := by
    show pyTake k _ = _
    unfold pyTake mostCommonAll
    rw [if_pos hk]
  have hMAX : select_best_variants .MAX k c =
      (List.insertionSort byLenDesc ((List.insertionSort byCountDesc c).map Prod.fst)).take
        k.toNat := by
    show pyTake k _ = _
    unfold pyTake mostCommonAll
    rw [if_pos hk]
  obtain ⟨hlen1, hpw1, hmem1, hdom1⟩ := take_sort_spec byCountDesc c k.toNat
  obtain ⟨hlen2, hpw2, hmem2, hdom2⟩ :=
    take_sort_spec byLenAsc ((List.insertionSort byCountDesc c).map Prod.fst) k.toNat
  obtain ⟨hlen3, hpw3, hmem3, hdom3⟩ :=
    take_sort_spec byLenDesc ((List.insertionSort byCountDesc c).map Prod.fst) k.toNat
  have hpermc : ((List.insertionSort byCountDesc c).map Prod.fst).Perm (c.map Prod.fst) :=
    (List.perm_insertionSort byCountDesc c).map Prod.fst
  refine ⟨⟨?_, ?_, ?_, ?_⟩, ⟨?_, ?_, ?_, ?_⟩, ⟨?_, ?_, ?_, ?_⟩⟩
  · rw [hFRQ, List.length_map]
    exact hlen1
  · rw [hFRQ, List.pairwise_map]
    refine List.Pairwise.imp_of_mem ?_ hpw1
    intro a b ha hb hab
    rw [countOf_eq hkeys (hmem1 a ha), countOf_eq hkeys (hmem1 b hb)]
    exact hab
  · intro v hv
    rw [hFRQ] at hv
    obtain ⟨p, hp, hpv⟩ := List.mem_map.mp hv
    exact hpv ▸ List.mem_map_of_mem Prod.fst (hmem1 p hp)
  · intro v hv q hq hqn
    rw [hFRQ] at hv hqn
    obtain ⟨p, hp, hpv⟩ := List.mem_map.mp hv
    have hqt : q ∉ (List.insertionSort byCountDesc c).take k.toNat := by
      intro hqt
      exact hqn (List.mem_map_of_mem Prod.fst hqt)
    have hr := hdom1 p hp q hq hqt
    rw [← hpv, countOf_eq hkeys (hmem1 p hp)]
    exact hr
  · rw [hMIN, hlen2, List.length_map, (List.perm_insertionSort byCountDesc c).length_eq]
  · rw [hMIN]
    exact hpw2
  · intro v hv
    rw [hMIN] at hv
    exact hpermc.mem_iff.mp (hmem2 v hv)
  · intro v hv q hq hqn
    rw [hMIN] at hv hqn
    have hql : q.1 ∈ (List.insertionSort byCountDesc c).map Prod.fst :=
      hpermc.mem_iff.mpr (List.mem_map_of_mem Prod.fst hq)
    exact hdom2 v hv q.1 hql hqn
  · rw [hMAX, hlen3, List.length_map, (List.perm_insertionSort byCountDesc c).length_eq]
  · rw [hMAX]
    exact hpw3
  · intro v hv
    rw [hMAX] at hv
    exact hpermc.mem_iff.mp (hmem3 v hv)
  · intro v hv q hq hqn
    rw [hMAX] at hv hqn
    have hql : q.1 ∈ (List.insertionSort byCountDesc c).map Prod.fst :=
      hpermc.mem_iff.mpr (List.mem_map_of_mem Prod.fst hq)
    exact hdom3 v hv q.1 hql hqn

end PM

namespace PM

theorem process_event_final_after_no_model {M : Type} {B : Backend M} {cfg : Config}
    {s : MinerState M} {e : Event} {buf : List Activity}
    {tr' : List (Case × List Activity)}
    (hfin : e.activity = FINAL_ACTIVITY)
    (hpop : popAssoc s.traces e.case_id = some (buf, tr'))
    (hgt : ((s.processed_traces + 1 : Nat) : Int) > cfg.cut_point)
    (hm : s.models = []) :
    process_event B cfg s e = .error .indexError := by
  have hne : ¬ ((s.processed_traces + 1 : Nat) : Int) = cfg.cut_point := by
    intro h
    rw [h] at hgt
    exact lt_irrefl _ hgt
  have hev : evaluate_model B
      { s with traces := tr'
               variants := counterAdd s.variants buf
               processed_traces := s.processed_traces + 1 } buf = .error .indexError := by
    unfold evaluate_model
    simp [hm]
  unfold process_event
  rw [if_pos hfin, hpop]
  simp only [if_neg hne, if_pos hgt]
  split
  · rename_i err heq
    rw [hev] at heq
    injection heq with h
    rw [h]
  · rename_i s2 heq
    rw [hev] at heq
    exact Except.noConfusion heq

/-- C7 (amended): the f-measure is computed as the harmonic mean
`2·fitness·precision/(fitness+precision)` — in particular it is `1/2` at
`fitness = precision = 1/2`, and `eval_one` records exactly
`[fitness, precision, f-measure]` — but when fitness and precision are
both zero the division raises a `ZeroDivisionError` (Python float
semantics) rather than producing a NaN. -/
theorem f_measure_harmonic_or_divide_error :
    (∀ fitness precision : ℚ, fitness + precision ≠ 0 →
      f_measure fitness precision =
        .ok (2 * fitness * precision / (fitness + precision))) ∧
    f_measure (1/2) (1/2) = .ok (1/2) ∧
    (∀ fitness precision : ℚ, fitness + precision = 0 →
      f_measure fitness precision = .error .zeroDivisionError) ∧
    (∀ (M : Type) (B : Backend M) (m : M) (t : Variant) (r : List ℚ),
      eval_one B m t = .ok r →
      ∃ fm, f_measure (B.fitness m t) (B.precision m t) = .ok fm ∧
        r = [B.fitness m t, B.precision m t, fm]) := by
  refine ⟨fun f p h => by rw [f_measure, if_neg h], ?_,
    fun f p h => by rw [f_measure, if_pos h],
    fun Mo B m t r h => eval_one_ok h⟩
  norm_num [f_measure]

/-- C7 counterexample: with fitness = precision = 0 the f-measure
expression raises a divide-by-zero error, and a stream whose first
post-warm-up evaluation sees the all-zero backend aborts with
`ZeroDivisionError` — the claim's "NaN is propagated without raising" is
false on this code. -/
theorem f_measure_zero_zero_divide_error :
    f_measure 0 0 = .error .zeroDivisionError ∧
    process_stream Bz cfgA (initState (List Variant))
      [⟨"c1", "a"⟩, ⟨"c1", FINAL_ACTIVITY⟩, ⟨"c2", "b"⟩, ⟨"c2", FINAL_ACTIVITY⟩] =
      .error .zeroDivisionError := by
  constructor
  · rw [f_measure, if_pos (by norm_num)]
  · have h1 : process_stream Bz cfgA (initState (List Variant))
        [⟨"c1", "a"⟩, ⟨"c1", FINAL_ACTIVITY⟩, ⟨"c2", "b"⟩] = .ok s2W := by decide
    have h4 : process_event Bz cfgA s2W ⟨"c2", FINAL_ACTIVITY⟩ = .error .zeroDivisionError := by
      norm_num [process_event, evaluate_model, eval_one, f_measure, popAssoc, counterAdd,
        s2W, Bz, cfgA, FINAL_ACTIVITY]
    have h2 : process_event Bz cfgA (initState (List Variant)) ⟨"c1", "a"⟩ =
        .ok { initState (List Variant) with traces := [("c1", ["a"])] } := by decide
    have h3 : process_event Bz cfgA { initState (List Variant) with traces := [("c1", ["a"])] }
        ⟨"c1", FINAL_ACTIVITY⟩ = .ok
        { processed_traces := 1
          variants := [(["a"], 1)]
          best_variants := some [["a"]]
          models := [[["a"]]]
          drifts := [(1, [["a"]])]
          evaluations := []
          traces := []
          learn_calls := 1
          eval_calls := 0 } := by decide
    have h3b : process_event Bz cfgA
        { processed_traces := 1
          variants := [(["a"], 1)]
          best_variants := some [["a"]]
          models := [[["a"]]]
          drifts := [(1, [["a"]])]
          evaluations := []
          traces := []
          learn_calls := 1
          eval_calls := 0 } ⟨"c2", "b"⟩ = .ok s2W := by decide
    simp only [process_stream, h2, h3, h3b, h4]

/-- C9 (amended): no configuration validation is performed — under an
invalid configuration (warm-up count ≤ 0) stream events are still
processed normally, and the run only fails later, with an uncaught
`IndexError` at the first finalized trace (empty model list), not with a
configuration error reported before processing begins. -/
theorem invalid_config_processes_events {M : Type} (B : Backend M) (cfg : Config)
    (hc : cfg.cut_point ≤ 0) (c : Case) (a : Activity) (ha : ¬ a = FINAL_ACTIVITY) :
    process_stream B cfg (initState M) [⟨c, a⟩] =
      .ok { initState M with traces := [(c, [a])] } ∧
    process_stream B cfg (initState M) [⟨c, a⟩, ⟨c, FINAL_ACTIVITY⟩] =
      .error .indexError := by
  have h1 : process_event B cfg (initState M) (⟨c, a⟩ : Event) =
      .ok { initState M with traces := [(c, [a])] } := by
    have h := @process_event_new_case M B cfg (initState M) ⟨c, a⟩ ha rfl
    simpa [initState] using h
  have hpop : popAssoc ({ initState M with traces := [(c, [a])] } : MinerState M).traces
      ((⟨c, FINAL_ACTIVITY⟩ : Event).case_id) = some ([a], []) := by
    simp [popAssoc]
  have hgt : ((({ initState M with traces := [(c, [a])] } :
      MinerState M).processed_traces + 1 : Nat) : Int) > cfg.cut_point := by
    show ((0 + 1 : Nat) : Int) > cfg.cut_point
    push_cast
    omega
  have h2 : process_event B cfg ({ initState M with traces := [(c, [a])] } : MinerState M)
      ⟨c, FINAL_ACTIVITY⟩ = .error .indexError :=
    process_event_final_after_no_model rfl hpop hgt rfl
  constructor
  · simp only [process_stream, h1]
  · simp only [process_stream, h1, h2]

/-- C9 counterexample: with the invalid configuration `cut_point = 0` the
first stream event is processed (the open-trace map changes) — no
configuration error is reported before stream processing begins. -/
theorem config_zero_cut_processes_event :
    process_stream B1 cfgZ (initState (List Variant)) [⟨"c", "a"⟩] =
      .ok { initState (List Variant) with traces := [("c", ["a"])] } ∧
    process_stream B1 cfgZ (initState (List Variant)) [⟨"c", "a"⟩, ⟨"c", FINAL_ACTIVITY⟩] =
      .error .indexError := by
  constructor
  · decide
  · decide

end PM

namespace PM

theorem drift_iff_top_variants_change_witness :
    (process_event B1 cfgA s2W ⟨"c2", FINAL_ACTIVITY⟩ = .ok s3W ∧
      popAssoc s2W.traces "c2" = some (["b"], []) ∧
      ((s2W.processed_traces + 1 : Nat) : Int) > cfgA.cut_point) ∧
    (∃ last, s2W.drifts.getLast? = some last ∧
      (select_best_variants cfgA.order cfgA.top_variants (counterAdd s2W.variants ["b"]) ≠
          last.2 →
        s3W.drifts = s2W.drifts ++ [(s2W.processed_traces + 1,
          select_best_variants cfgA.order cfgA.top_variants (counterAdd s2W.variants ["b"]))] ∧
        s3W.models.length = s2W.models.length + 1 ∧
        s3W.learn_calls = s2W.learn_calls + 1) ∧
      (select_best_variants cfgA.order cfgA.top_variants (counterAdd s2W.variants ["b"]) =
          last.2 →
        s3W.drifts = s2W.drifts ∧ s3W.models = s2W.models ∧
        s3W.learn_calls = s2W.learn_calls)) := by
  have hok : process_event B1 cfgA s2W ⟨"c2", FINAL_ACTIVITY⟩ = .ok s3W := by
    norm_num [process_event, evaluate_model, eval_one, f_measure, learn_model, popAssoc,
      lookupAssoc, setAssoc, counterAdd, select_best_variants, mostCommon, mostCommonAll,
      pyTake, List.insertionSort, List.orderedInsert, byCountDesc, s2W, s3W, B1, cfgA,
      FINAL_ACTIVITY] <;> decide
  exact ⟨⟨hok, by decide, by decide⟩,
    @drift_iff_top_variants_change (List Variant) B1 cfgA s2W s3W ⟨"c2", FINAL_ACTIVITY⟩
      ["b"] [] rfl (by decide) (by decide) hok⟩

theorem collapse_policy_no_triple_witness :
    process_stream B1 cfgBig (initState (List Variant))
      [⟨"c", "A"⟩, ⟨"c", "A"⟩, ⟨"c", "A"⟩, ⟨"c", "A"⟩, ⟨"c", "B"⟩, ⟨"c", FINAL_ACTIVITY⟩] =
      .ok { initState (List Variant) with
            processed_traces := 1
            variants := [(["A", "A", "B"], 1)] } ∧
    (∀ p ∈ ({ initState (List Variant) with
        processed_traces := 1
        variants := [(["A", "A", "B"], 1)] } : MinerState (List Variant)).variants,
      hasTriple p.1 = false) :=
  ⟨by decide,
    (collapse_policy_no_triple B1 cfgBig
      [⟨"c", "A"⟩, ⟨"c", "A"⟩, ⟨"c", "A"⟩, ⟨"c", "A"⟩, ⟨"c", "B"⟩, ⟨"c", FINAL_ACTIVITY⟩]
      { initState (List Variant) with
        processed_traces := 1
        variants := [(["A", "A", "B"], 1)] } (by decide)).1⟩

theorem drift_counts_strict_mono_first_at_cut_witness :
    process_stream B1 cfgA (initState (List Variant))
      [⟨"c1", "a"⟩, ⟨"c1", FINAL_ACTIVITY⟩, ⟨"c2", "b"⟩] = .ok s2W ∧
    List.Chain' (· < ·) (s2W.drifts.map Prod.fst) ∧
    (∀ d ∈ s2W.drifts.head?, (d.1 : Int) = cfgA.cut_point) :=
  ⟨by decide,
    (drift_counts_strict_mono_first_at_cut B1 cfgA
      [⟨"c1", "a"⟩, ⟨"c1", FINAL_ACTIVITY⟩, ⟨"c2", "b"⟩] s2W (by decide)).1,
    (drift_counts_strict_mono_first_at_cut B1 cfgA
      [⟨"c1", "a"⟩, ⟨"c1", FINAL_ACTIVITY⟩, ⟨"c2", "b"⟩] s2W (by decide)).2.1⟩

theorem drift_records_match_models_witness :
    process_stream B1 cfgA (initState (List Variant))
      [⟨"c1", "a"⟩, ⟨"c1", FINAL_ACTIVITY⟩, ⟨"c2", "b"⟩] = .ok s2W ∧
    (s2W.drifts.length = s2W.models.length ∧ s2W.models.length = s2W.learn_calls) :=
  ⟨by decide,
    drift_records_match_models B1 cfgA
      [⟨"c1", "a"⟩, ⟨"c1", FINAL_ACTIVITY⟩, ⟨"c2", "b"⟩] s2W (by decide)⟩

theorem select_top_ranking_correct_witness :
    ((0 : Int) ≤ 2 ∧ (cW.map Prod.fst).Nodup) ∧
    (select_best_variants .FRQ 2 cW).length = min (2 : Int).toNat cW.length :=
  ⟨⟨by decide, by decide⟩, (select_top_ranking_correct 2 (by decide) cW (by decide)).1.1⟩

theorem evaluation_per_post_warmup_trace_witness :
    (popAssoc s2W.traces "c2" = some (["b"], []) ∧
      ((s2W.processed_traces + 1 : Nat) : Int) > cfgA.cut_point ∧
      process_event B1 cfgA s2W ⟨"c2", FINAL_ACTIVITY⟩ = .ok s3W) ∧
    (∃ current initial fm1 fm2,
      s2W.models.getLast? = some current ∧ s2W.models.head? = some initial ∧
      f_measure (B1.fitness current ["b"]) (B1.precision current ["b"]) = .ok fm1 ∧
      f_measure (B1.fitness initial ["b"]) (B1.precision initial ["b"]) = .ok fm2 ∧
      s3W.evaluations = s2W.evaluations ++
        [[B1.fitness current ["b"], B1.precision current ["b"], fm1,
          B1.fitness initial ["b"], B1.precision initial ["b"], fm2]] ∧
      s3W.eval_calls = s2W.eval_calls + 1) := by
  have hok : process_event B1 cfgA s2W ⟨"c2", FINAL_ACTIVITY⟩ = .ok s3W := by
    norm_num [process_event, evaluate_model, eval_one, f_measure, learn_model, popAssoc,
      lookupAssoc, setAssoc, counterAdd, select_best_variants, mostCommon, mostCommonAll,
      pyTake, List.insertionSort, List.orderedInsert, byCountDesc, s2W, s3W, B1, cfgA,
      FINAL_ACTIVITY] <;> decide
  exact ⟨⟨by decide, by decide, hok⟩,
    (@evaluation_per_post_warmup_trace (List Variant) B1 cfgA s2W ⟨"c2", FINAL_ACTIVITY⟩
      ["b"] [] rfl (by decide)).1 s3W (by decide) hok⟩

theorem f_measure_harmonic_or_divide_error_witness :
    ((1 / 2 : ℚ) + 1 / 2 ≠ 0) ∧
    f_measure (1 / 2) (1 / 2) = .ok (2 * (1 / 2) * (1 / 2) / ((1 / 2 : ℚ) + 1 / 2)) :=
  ⟨by norm_num,
    f_measure_harmonic_or_divide_error.1 (1 / 2) (1 / 2) (by norm_num)⟩

theorem final_event_pops_case_or_key_error_witness :
    ((⟨"c1", FINAL_ACTIVITY⟩ : Event).activity = FINAL_ACTIVITY ∧
      popAssoc sOpen.traces "c1" = some (["a"], []) ∧
      (sOpen.traces.map Prod.fst).Nodup ∧
      process_event B1 cfgBig sOpen ⟨"c1", FINAL_ACTIVITY⟩ = .ok
        { initState (List Variant) with
          processed_traces := 1
          variants := [(["a"], 1)] }) ∧
    (({ initState (List Variant) with
        processed_traces := 1
        variants := [(["a"], 1)] } : MinerState (List Variant)).traces = [] ∧
      lookupAssoc ({ initState (List Variant) with
        processed_traces := 1
        variants := [(["a"], 1)] } : MinerState (List Variant)).traces "c1" = none ∧
      ({ initState (List Variant) with
        processed_traces := 1
        variants := [(["a"], 1)] } : MinerState (List Variant)).variants =
        counterAdd sOpen.variants ["a"] ∧
      ({ initState (List Variant) with
        processed_traces := 1
        variants := [(["a"], 1)] } : MinerState (List Variant)).processed_traces =
        sOpen.processed_traces + 1) :=
  ⟨⟨rfl, by decide, by decide, by decide⟩,
    (final_event_pops_case_or_key_error B1 cfgBig sOpen ⟨"c1", FINAL_ACTIVITY⟩ rfl).2
      ["a"] []
      { initState (List Variant) with
        processed_traces := 1
        variants := [(["a"], 1)] } (by decide) (by decide) (by decide)⟩

theorem invalid_config_processes_events_witness :
    (cfgZ.cut_point ≤ 0 ∧ ¬ "a" = FINAL_ACTIVITY) ∧
    (process_stream B1 cfgZ (initState (List Variant)) [⟨"c", "a"⟩] =
      .ok { initState (List Variant) with traces := [("c", ["a"])] } ∧
    process_stream B1 cfgZ (initState (List Variant)) [⟨"c", "a"⟩, ⟨"c", FINAL_ACTIVITY⟩] =
      .error .indexError) :=
  ⟨⟨by decide, by decide⟩,
    invalid_config_processes_events B1 cfgZ (by decide) "c" "a" (by decide)⟩

theorem nonfinal_event_frame_witness :
    (¬ (⟨"c1", "b"⟩ : Event).activity = FINAL_ACTIVITY ∧
      process_event B1 cfgBig sOpen ⟨"c1", "b"⟩ = .ok
        { initState (List Variant) with traces := [("c1", ["a", "b"])] }) ∧
    (({ initState (List Variant) with
        traces := [("c1", ["a", "b"])] } : MinerState (List Variant)).processed_traces =
        sOpen.processed_traces ∧
      ({ initState (List Variant) with
        traces := [("c1", ["a", "b"])] } : MinerState (List Variant)).variants =
        sOpen.variants ∧
      ({ initState (List Variant) with
        traces := [("c1", ["a", "b"])] } : MinerState (List Variant)).models =
        sOpen.models ∧
      ({ initState (List Variant) with
        traces := [("c1", ["a", "b"])] } : MinerState (List Variant)).evaluations =
        sOpen.evaluations) := by
  have hok : process_event B1 cfgBig sOpen ⟨"c1", "b"⟩ = .ok
      { initState (List Variant) with traces := [("c1", ["a", "b"])] } := by decide
  obtain ⟨h1, h2, h3, h4, h5, h6, h7, h8, h9, h10⟩ :=
    @nonfinal_event_frame (List Variant) B1 cfgBig sOpen
      { initState (List Variant) with traces := [("c1", ["a", "b"])] }
      ⟨"c1", "b"⟩ (by decide) hok
  exact ⟨⟨by decide, hok⟩, h1, h2, h5, h6⟩

end PM
